import Mathlib

/-!
Shallow embedding of the crawler / hybrid-retrieval core of
`dynamic-rag-system.js` (class `DynamicWebsiteRAG` and class `BM25Ranker`),
together with proofs settling the frozen claims about it.

Modelling conventions:
* JS numbers used for scores and embeddings are modelled as `ℚ`.  The only
  non-rational operation in the source, `Math.sqrt`, is modelled by an
  abstract `SqrtModel` (any function with `sqrt 0 = 0` and `sqrt q > 0`
  for `q > 0`); no claim depends on the exact value of a square root.
* A JS division is modelled by `jsDiv`, which returns `none` when the
  divisor is `0`: a zero divisor makes the JS expression evaluate to
  `NaN` or `±Infinity` (a non-finite number), never to a finite score.
* `str.split(sep)` (JS) is modelled by `jsSplit`, a structural
  re-implementation of the JS left-to-right non-overlapping scan, so that
  concrete runs reduce inside the kernel.
* The external collaborators (the OpenAI embedding client, the browser,
  and the `BM25` scoring class imported from a library) are parameters of
  the embedded functions: an embedding call is a `String → Option (List ℚ)`
  (`none` = failure), the page behaviour is a `Site` oracle, and the
  per-field BM25 model is a function `corpus → queryTokens → index → ℚ`.
-/

/-- `str.split(sep)`: structural scan over the character list.  `skip`
counts separator characters still to be consumed after a match. -/
def splitSkip (sep : List Char) : List Char → Nat → List Char → List (List Char)
  | [], _, acc => [acc.reverse]
  | _ :: rest, Nat.succ k, acc => splitSkip sep rest k acc
  | c :: rest, 0, acc =>
    if sep.isPrefixOf (c :: rest) then acc.reverse :: splitSkip sep rest (sep.length - 1) []
    else splitSkip sep rest 0 (c :: acc)

/-- JS `String.prototype.split` with a non-empty string separator
(left-to-right, non-overlapping; `"".split(sep) = [""]`). -/
def jsSplit (sep : String) (s : String) : List String :=
  (splitSkip sep.data s.data 0 []).map String.mk

/-- JS `Array.prototype.join(sep)`. -/
def joinSep (sep : String) : List String → String
  | [] => ""
  | [s] => s
  | s :: rest => s ++ sep ++ joinSep sep rest

/-- `str.substring(0, n)` for ASCII content: the first `n` characters. -/
def takeChars (n : Nat) (s : String) : String := String.mk (s.data.take n)

/-- `str.toLowerCase()` (ASCII). -/
def lowerStr (s : String) : String := String.mk (s.data.map Char.toLower)

/-- A JS `\w` character: `[A-Za-z0-9_]`. -/
def isWordChar (c : Char) : Bool := c.isAlphanum || c = '_'

/-- Split a character list at every character failing `p`
(empty pieces included, as the JS per-character split would produce). -/
def splitChars (p : Char → Bool) : List Char → List Char → List String
  | [], acc => [String.mk acc.reverse]
  | c :: rest, acc =>
    if p c then String.mk acc.reverse :: splitChars p rest []
    else splitChars p rest (c :: acc)

/-- `BM25Ranker.tokenize`: lowercase, replace every character that is not a
word character by whitespace, split on whitespace, drop tokens of length
`≤ 2`.  Splitting at every non-word character and dropping the empty pieces
yields exactly the same token list as the JS replace-then-split-on-runs. -/
def tokenize (s : String) : List String :=
  (splitChars (fun c => !(isWordChar c)) (lowerStr s).data []).filter
    (fun t => 2 < t.data.length)

/-- One stored document (`this.documents` entries). -/
structure Doc where
  url : String
  title : String
  content : String
  source : String
deriving DecidableEq, Repr

/-- One vector-store entry (`this.vectorStore` entries). -/
structure VecEntry where
  url : String
  embedding : List ℚ
deriving DecidableEq, Repr

/-- The mutable knowledge-base state of a `DynamicWebsiteRAG` instance. -/
structure RagState where
  documents : List Doc
  vectorStore : List VecEntry
deriving DecidableEq, Repr

/-- The `chunkText` inner word loop (the fallback for a paragraph whose
token count exceeds `maxTokens`): greedy accumulation of words, counting
`encode(word + ' ').length` per word, joining each finished group with a
single space.  `temp` and `tl` are `tempChunk` and `tempLength`. -/
def wordLoop (tc : String → Nat) (maxT : Nat) : List String → List String → Nat → List String
  | [], temp, _ => if temp.isEmpty then [] else [joinSep " " temp]
  | w :: ws, temp, tl =>
    if tl + tc (w ++ " ") ≤ maxT then wordLoop tc maxT ws (temp ++ [w]) (tl + tc (w ++ " "))
    else joinSep " " temp :: wordLoop tc maxT ws [w] (tc (w ++ " "))

/-- The `chunkText` paragraph loop: greedy accumulation of paragraphs by
summed token count; on overflow the current group is closed, except that an
overflowing paragraph meeting an empty group falls through to the word
loop.  `cur` and `cl` are `currentChunk` and `currentLength`. -/
def paraLoop (tc : String → Nat) (maxT : Nat) : List String → List String → Nat → List String
  | [], cur, _ => if cur.isEmpty then [] else [joinSep "\n\n" cur]
  | p :: ps, cur, cl =>
    if cl + tc p ≤ maxT then paraLoop tc maxT ps (cur ++ [p]) (cl + tc p)
    else if cur.isEmpty then
      wordLoop tc maxT (jsSplit " " p) [] 0 ++ paraLoop tc maxT ps [] 0
    else joinSep "\n\n" cur :: paraLoop tc maxT ps [p] (tc p)

/-- `chunkText(text, maxTokens)`.  `tc` models `(s) => encode(s).length`,
the token counter of the external `gpt-3-encoder`. -/
def chunkText (tc : String → Nat) (text : String) (maxT : Nat) : List String :=
  if tc text ≤ maxT then [text]
  else paraLoop tc maxT (jsSplit "\n\n" text) [] 0

-- sanity checks of the split/chunk embedding on concrete inputs
example : jsSplit "\n\n" "aa\n\nbb cc" = ["aa", "bb cc"] := by decide
example : jsSplit " " "bb cc" = ["bb", "cc"] := by decide
example : jsSplit "\n\n" "" = [""] := by decide
example : jsSplit "\n\n" "a\n\n\n\nb" = ["a", "", "b"] := by decide
example : chunkText (fun s => s.data.length) "aa\n\nbb cc" 3 = ["aa", "bb cc"] := by decide
example : chunkText (fun s => s.data.length) "ab cd" 1 = ["", "ab", "cd"] := by decide
example : tokenize "Login, with OAuth-tokens! a" = ["login", "with", "oauth", "tokens"] := by decide

/-! ### The stable sort used to model `Array.prototype.sort`

`Array.prototype.sort(cmp)` is stable (ES2019).  The source only ever sorts
with comparators of the form `(a, b) => f(b) - f(a)` or the two-level
`inBoth`-then-score comparator of `hybridSearch`; both are modelled as a
boolean relation `le a b` meaning "the comparator does not require `b`
before `a`".  `sortLe` is a stable insertion sort: an element is inserted
before the first element `y` with `le x y`, so earlier elements stay first
among comparator-ties. -/

/-- Stable insertion of `x` into `l`: `x` goes before the first `y` with
`le x y = true`. -/
def insLe {α : Type} (le : α → α → Bool) (x : α) : List α → List α
  | [] => [x]
  | y :: ys => if le x y then x :: y :: ys else y :: insLe le x ys

/-- Stable sort by the boolean relation `le` (JS stable `sort`). -/
def sortLe {α : Type} (le : α → α → Bool) (l : List α) : List α :=
  l.foldr (insLe le) []

theorem mem_insLe {α : Type} (le : α → α → Bool) (x : α) (l : List α) (z : α) :
    z ∈ insLe le x l ↔ z = x ∨ z ∈ l := by
  induction l with
  | nil => simp [insLe]
  | cons y ys ih =>
    by_cases h : le x y = true
    · simp [insLe, h]
    · simp only [insLe, if_neg h, List.mem_cons, ih]
      tauto

theorem mem_sortLe {α : Type} (le : α → α → Bool) (l : List α) (z : α) :
    z ∈ sortLe le l ↔ z ∈ l := by
  induction l with
  | nil => simp [sortLe]
  | cons y ys ih =>
    simp only [sortLe, List.foldr_cons] at ih ⊢
    rw [mem_insLe, ih, List.mem_cons]

theorem pairwise_insLe {α : Type} (le : α → α → Bool)
    (htot : ∀ a b, le a b = true ∨ le b a = true)
    (htrans : ∀ a b c, le a b = true → le b c = true → le a c = true)
    (x : α) (l : List α) (hl : l.Pairwise (fun a b => le a b = true)) :
    (insLe le x l).Pairwise (fun a b => le a b = true) := by
  induction l with
  | nil => simp [insLe]
  | cons y ys ih =>
    rcases hl with _ | ⟨hy, hys⟩
    by_cases h : le x y = true
    · rw [show insLe le x (y :: ys) = x :: y :: ys from by simp [insLe, h]]
      refine List.Pairwise.cons ?_ (List.Pairwise.cons hy hys)
      intro z hz
      rcases List.mem_cons.mp hz with rfl | hz
      · exact h
      · exact htrans x y z h (hy z hz)
    · rw [show insLe le x (y :: ys) = y :: insLe le x ys from by simp [insLe, h]]
      refine List.Pairwise.cons ?_ (ih hys)
      intro z hz
      rcases (mem_insLe le x ys z).mp hz with rfl | hz
      · rcases htot z y with h2 | h2
        · exact absurd h2 h
        · exact h2
      · exact hy z hz

theorem pairwise_sortLe {α : Type} (le : α → α → Bool)
    (htot : ∀ a b, le a b = true ∨ le b a = true)
    (htrans : ∀ a b c, le a b = true → le b c = true → le a c = true)
    (l : List α) : (sortLe le l).Pairwise (fun a b => le a b = true) := by
  induction l with
  | nil => exact List.Pairwise.nil
  | cons y ys ih =>
    exact pairwise_insLe le htot htrans y (sortLe le ys) ih

/-- Stability, phrased through a filter: if `P` holds of `x` exactly when it
holds of the elements that tie with `x` (`P`-elements are mutually `le`, and
an element strictly before a `P`-element is never `P` unless `le`), the
`P`-elements come out of the sort in their original order. -/
theorem filter_insLe_pos {α : Type} (le : α → α → Bool) (P : α → Bool) (x : α)
    (l : List α) (hx : P x = true) (hle : ∀ y ∈ l, P y = true → le x y = true) :
    (insLe le x l).filter P = x :: l.filter P := by
  induction l with
  | nil => simp [insLe, hx]
  | cons y ys ih =>
    by_cases h : le x y = true
    · simp [insLe, h, hx]
    · have hPy : P y = false := by
        cases hy : P y with
        | false => rfl
        | true => exact absurd (hle y (List.mem_cons_self y ys) hy) h
      simp only [insLe, if_neg h, List.filter_cons, hPy]
      simp only [Bool.false_eq_true, if_false]
      exact ih (fun z hz hPz => hle z (List.mem_cons_of_mem y hz) hPz)

theorem filter_insLe_neg {α : Type} (le : α → α → Bool) (P : α → Bool) (x : α)
    (l : List α) (hx : P x = false) :
    (insLe le x l).filter P = l.filter P := by
  induction l with
  | nil => simp [insLe, hx]
  | cons y ys ih =>
    by_cases h : le x y = true
    · simp [insLe, h, List.filter_cons, hx]
    · simp only [insLe, if_neg h, List.filter_cons]
      rw [ih]

/-- Stability of `sortLe`: a class of mutually-tying elements (`P`) keeps
its original relative order. -/
theorem filter_sortLe {α : Type} (le : α → α → Bool) (P : α → Bool)
    (hP : ∀ a b, P a = true → P b = true → le a b = true)
    (l : List α) : (sortLe le l).filter P = l.filter P := by
  induction l with
  | nil => rfl
  | cons y ys ih =>
    show (insLe le y (sortLe le ys)).filter P = _
    cases hy : P y with
    | true =>
      rw [filter_insLe_pos le P y (sortLe le ys) hy
        (fun z _ hz => hP y z hy hz), ih, List.filter_cons, hy, if_pos rfl]
    | false =>
      rw [filter_insLe_neg le P y (sortLe le ys) hy, ih,
        List.filter_cons, hy]
      simp

/-- In a list sorted by a relation under which `P` is closed to the left,
filtering equals taking the initial `P`-segment. -/
theorem filter_eq_takeWhile_of_pairwise {α : Type} {R : α → α → Prop}
    (P : α → Bool) (l : List α) (hl : l.Pairwise R)
    (hdc : ∀ a b, R a b → P b = true → P a = true) :
    l.filter P = l.takeWhile P := by
  induction l with
  | nil => rfl
  | cons y ys ih =>
    rcases hl with _ | ⟨hy, hys⟩
    cases hPy : P y with
    | true => simp [List.filter_cons, List.takeWhile_cons, hPy, ih hys]
    | false =>
      have : ys.filter P = [] := by
        rw [List.filter_eq_nil_iff]
        intro b hb hPb
        have := hdc y b (hy b hb) hPb
        rw [hPy] at this
        cases this
      simp [List.filter_cons, List.takeWhile_cons, hPy, this]

theorem takeWhile_take_comm {α : Type} (P : α → Bool) :
    ∀ (k : Nat) (l : List α), (l.take k).takeWhile P = (l.takeWhile P).take k
  | _, [] => by simp
  | 0, _ :: _ => by simp
  | Nat.succ k, y :: ys => by
    cases hPy : P y with
    | true => simp [List.takeWhile_cons, hPy, takeWhile_take_comm P k ys]
    | false => simp [List.takeWhile_cons, hPy]

/-! ### Cosine similarity and the vector store -/

/-- An abstract model of `Math.sqrt`: any map fixing `0` and sending
positives to positives.  The source never relies on more. -/
structure SqrtModel where
  f : ℚ → ℚ
  zero : f 0 = 0
  pos : ∀ q, 0 < q → 0 < f q

/-- A JS division.  When the divisor is `0` the JS result is `NaN` or
`±Infinity` — a non-finite number, modelled as `none`. -/
def jsDiv (a b : ℚ) : Option ℚ := if b = 0 then none else some (a / b)

/-- `vecA.reduce((sum, a, i) => sum + a * vecB[i], 0)` for equal-length
vectors. -/
def dotProduct (a b : List ℚ) : ℚ := ((a.zip b).map (fun p => p.1 * p.2)).sum

/-- Sum of squares of the entries (the radicand of the magnitude). -/
def sumSq (a : List ℚ) : ℚ := (a.map (fun x => x * x)).sum

/-- `cosineSimilarity(vecA, vecB)`: the dot product divided by the product
of the magnitudes, with no guard on the divisor. -/
def cosineSimilarity (sq : SqrtModel) (vecA vecB : List ℚ) : Option ℚ :=
  jsDiv (dotProduct vecA vecB) (sq.f (sumSq vecA) * sq.f (sumSq vecB))

/-- `semanticSearch(query, topK)` given the query embedding (`none` models
a failed `createEmbedding` call, which returns `[]`).  Similarities are
computed against every vector-store entry in order, sorted descending
(stably), cut to `topK`, and mapped to the same-index documents.
`getD 0` and `filterMap` only matter for states a claim never reaches
(a non-finite similarity, or an index beyond the document list, would make
the JS pipeline misbehave downstream rather than return a list). -/
def semanticSearch (sq : SqrtModel) (st : RagState) (queryEmb : Option (List ℚ))
    (topK : Nat) : List Doc :=
  match queryEmb with
  | none => []
  | some q =>
    let sims := st.vectorStore.enum.map
      (fun p => (p.1, (cosineSimilarity sq q p.2.embedding).getD 0))
    (((sortLe (fun a b : Nat × ℚ => decide (b.2 ≤ a.2)) sims).take topK).filterMap
      (fun p => st.documents.get? p.1))

/-! ### Knowledge-base state operations -/

/-- The per-chunk append of `crawlDynamicSite`: embed the chunk; on success
push the vector entry and the document together, on failure push neither. -/
def appendChunk (embed : String → Option (List ℚ)) (st : RagState)
    (url title chunk source : String) : RagState :=
  match embed chunk with
  | none => st
  | some e =>
    { documents := st.documents ++ [{ url := url, title := title, content := chunk, source := source }],
      vectorStore := st.vectorStore ++ [{ url := url, embedding := e }] }

/-- The alignment invariant of the knowledge base: equal lengths, and at
every index the vector entry carries the document's url and the embedding
produced from the document's content. -/
def alignedKB (embed : String → Option (List ℚ)) (st : RagState) : Prop :=
  st.documents.length = st.vectorStore.length ∧
  ∀ p ∈ st.documents.zip st.vectorStore,
    p.1.url = p.2.url ∧ embed p.1.content = some p.2.embedding

instance (embed : String → Option (List ℚ)) (st : RagState) :
    Decidable (alignedKB embed st) := by
  unfold alignedKB
  exact instDecidableAnd

/-- The outcome of `fs.readFileSync` + `JSON.parse` inside
`importKnowledgeBase`.  `none`: the read or the parse threw.  `jnull`: the
parse succeeded with `null`, so `data.documents` throws before any
assignment (caught, `false` returned).  `jobj d v`: anything else parsed;
a missing `documents`/`vectorStore` property is `none` and defaults to
`[]` through `|| []` (a parsed non-null primitive behaves like
`jobj none none`, since property access on it yields `undefined` without
throwing). -/
inductive KBFile : Type
  | jnull : KBFile
  | jobj : Option (List Doc) → Option (List VecEntry) → KBFile
deriving DecidableEq

/-- `importKnowledgeBase(filePath)`: replace both arrays from the parsed
file and return `true`; on a read/parse failure return `false` with the
state untouched. -/
def importKnowledgeBase (st : RagState) (file : Option KBFile) : RagState × Bool :=
  match file with
  | none => (st, false)
  | some KBFile.jnull => (st, false)
  | some (KBFile.jobj d v) => ({ documents := d.getD [], vectorStore := v.getD [] }, true)

/-! ### The BM25 ranker (`class BM25Ranker`)

The `BM25` class instantiated per field comes from an external library, so
the per-field scoring model is a parameter `lib` taking the tokenized field
corpus, the tokenized query and a document index to a score. -/

/-- The tokenized corpus the constructor builds for one field:
`documents.map(doc => this.tokenize(doc[field] || ''))`, with `getF`
modelling the property access (a missing property is `none`). -/
def fieldCorpus {α : Type} (getF : α → String → Option String) (docs : List α)
    (field : String) : List (List String) :=
  docs.map (fun d => tokenize ((getF d field).getD ""))

/-- The weighted total score of document `idx`:
`sum over fields of bm25Models[field].score(queryTokens, idx) * weight`. -/
def totalScore {α : Type} (lib : List (List String) → List String → Nat → ℚ)
    (getF : α → String → Option String) (docs : List α)
    (weights : List (String × ℚ)) (qtoks : List String) (idx : Nat) : ℚ :=
  (weights.map (fun fw => lib (fieldCorpus getF docs fw.1) qtoks idx * fw.2)).sum

/-- The `scores` array of `BM25Ranker.search`: every document paired with
its weighted total score, in document order. -/
def bm25Scored {α : Type} (lib : List (List String) → List String → Nat → ℚ)
    (getF : α → String → Option String) (docs : List α)
    (weights : List (String × ℚ)) (query : String) : List (α × ℚ) :=
  docs.enum.map (fun p => (p.2, totalScore lib getF docs weights (tokenize query) p.1))

/-- The descending-score comparator `(a, b) => b.score - a.score`. -/
def scoreLe {α : Type} (a b : α × ℚ) : Bool := decide (b.2 ≤ a.2)

/-- `BM25Ranker.search(query, topK)`: sort by score descending (stable),
`slice(0, topK)`, keep strictly positive scores, return the documents. -/
def bm25RankerSearch {α : Type} (lib : List (List String) → List String → Nat → ℚ)
    (getF : α → String → Option String) (docs : List α)
    (weights : List (String × ℚ)) (query : String) (topK : Nat) : List α :=
  ((((sortLe scoreLe (bm25Scored lib getF docs weights query)).take topK).filter
    (fun p => decide (0 < p.2))).map Prod.fst)

/-- The property access `doc[field]` for the stored `Doc` shape (both
configured fields are always present on a crawler-produced document). -/
def docGetField (d : Doc) (field : String) : Option String :=
  if field = "title" then some d.title
  else if field = "content" then some d.content
  else none

/-! ### Hybrid fusion (`hybridSearch`) -/

/-- The merge key: `doc.url + doc.content.substring(0, 50)`. -/
def docKey (d : Doc) : String := d.url ++ takeChars 50 d.content

/-- One value of the `combinedResults` map. -/
structure FuseEntry where
  doc : Doc
  score : ℚ
  inBoth : Bool
deriving DecidableEq, Repr

/-- JS `Map.prototype.set`: replace in place if the key exists, else append
(iteration order is insertion order). -/
def setEntry : List (String × FuseEntry) → String → FuseEntry → List (String × FuseEntry)
  | [], k, v => [(k, v)]
  | (k2, v2) :: rest, k, v =>
    if k2 = k then (k, v) :: rest else (k2, v2) :: setEntry rest k v

/-- JS `Map.prototype.get` (`none` = key absent). -/
def lookupEntry : List (String × FuseEntry) → String → Option FuseEntry
  | [], _ => none
  | (k2, v) :: rest, k => if k2 = k then some v else lookupEntry rest k

/-- One step of the BM25 pass of `hybridSearch`: an existing entry gains
`+1.0` and is marked `inBoth`; a new key is appended with score `0.5`. -/
def bmStep (m : List (String × FuseEntry)) (d : Doc) : List (String × FuseEntry) :=
  match lookupEntry m (docKey d) with
  | some e => setEntry m (docKey d) { doc := e.doc, score := e.score + 1, inBoth := true }
  | none => m ++ [(docKey d, { doc := d, score := 1/2, inBoth := false })]

/-- The fusion comparator: `inBoth` entries first, then score descending. -/
def fuseLe (a b : FuseEntry) : Bool :=
  if a.inBoth = b.inBoth then decide (b.score ≤ a.score) else a.inBoth

/-- The fusion stage of `hybridSearch`: seed the map with the semantic
results at score `1.0`, fold the BM25 results in with `bmStep`, sort the
values with the two-level comparator, project the documents, cut to
`topK`. -/
def fuseResults (semanticResults bm25Results : List Doc) (topK : Nat) : List Doc :=
  let m1 := semanticResults.foldl
    (fun m d => setEntry m (docKey d) { doc := d, score := 1, inBoth := false }) []
  let m2 := bm25Results.foldl bmStep m1
  ((sortLe fuseLe (m2.map Prod.snd)).map FuseEntry.doc).take topK

/-- `hybridSearch(query, topK)`: semantic search and BM25 search are each
asked for `topK * 2` candidates (with the fixed weights
`{title: 2, content: 1}`), then fused. -/
def hybridSearch (sq : SqrtModel) (lib : List (List String) → List String → Nat → ℚ)
    (st : RagState) (queryEmb : Option (List ℚ)) (query : String) (topK : Nat) : List Doc :=
  fuseResults (semanticSearch sq st queryEmb (topK * 2))
    (bm25RankerSearch lib docGetField st.documents [("title", 2), ("content", 1)] query (topK * 2))
    topK

/-- "Appears in both result sets" under the fusion's key-based identity. -/
def inBothSets (semanticResults bm25Results : List Doc) (d : Doc) : Prop :=
  docKey d ∈ semanticResults.map docKey ∧ docKey d ∈ bm25Results.map docKey

instance (s b : List Doc) (d : Doc) : Decidable (inBothSets s b d) := by
  unfold inBothSets
  exact instDecidableAnd

/-! ### The crawler state machine (`crawlDynamicSite`)

The browser is an oracle: each discovered interactive element carries the
outcome the page would produce when it is clicked, and a `Site` records the
per-url behaviour.  I/O waits and the `goBack` re-capture (whose result the
source discards) have no effect on the embedded state. -/

/-- One discovered interactive element together with the page's response to
clicking it.  `fails = true` models a thrown scroll/click (the `catch`
branch, entered before any state change).  `landUrl` is `page.url()` after
the click; `captured` is the structured text of the re-captured content. -/
structure ElemAct where
  category : String
  text : String
  fails : Bool
  landUrl : String
  captured : String
deriving DecidableEq, Repr

/-- The per-url behaviour of a site.  `navFails u` models `page.goto`
throwing (the outer `catch`: the url stays visited, nothing is appended).
`pageMarkdown u` is the structured text of the initial capture,
`elements u` the discovered interactive elements, `links u` the extracted
absolute hrefs, `parseable l` whether `new URL(l)` succeeds, and `host l`
the parsed hostname. -/
structure Site where
  navFails : String → Bool
  pageMarkdown : String → String
  elements : String → List ElemAct
  links : String → List String
  parseable : String → Bool
  host : String → String

/-- `visitedUrls.add(u)` (JS `Set`). -/
def addUrl (vis : List String) (u : String) : List String :=
  if u ∈ vis then vis else u :: vis

/-- Append every chunk of `md` (each embedded separately; a failed
embedding skips both pushes). -/
def appendChunks (embed : String → Option (List ℚ)) (tc : String → Nat)
    (maxT : Nat) (st : RagState) (url title md source : String) : RagState :=
  (chunkText tc md maxT).foldl
    (fun s ch => appendChunk embed s url title ch source) st

/-- The interaction loop of `crawlDynamicSite` over the discovered
elements.  State: current `markdown`, `interactionsCount`, knowledge-base
state, visited set.  A failing element and a duplicate capture both
`continue` without incrementing the counter; a successful interaction
chunks and embeds the captured text under the landing url and increments
the counter; an SPA navigation (`landUrl ≠ origUrl`) at `depth > 0` adds
the landing url to the visited set (the `goBack` capture is discarded by
the source). -/
def runInteractions (embed : String → Option (List ℚ)) (tc : String → Nat)
    (maxI maxT : Nat) (depth : Int) (origUrl : String) :
    List ElemAct → String → Nat → RagState → List String →
    String × Nat × RagState × List String
  | [], md, c, st, vis => (md, c, st, vis)
  | e :: rest, md, c, st, vis =>
    if maxI ≤ c then (md, c, st, vis)
    else if e.fails then runInteractions embed tc maxI maxT depth origUrl rest md c st vis
    else if e.captured = md then
      runInteractions embed tc maxI maxT depth origUrl rest md c st vis
    else
      let st2 := appendChunks embed tc maxT st e.landUrl e.landUrl e.captured
        ("interaction:" ++ e.category ++ ":" ++ e.text)
      let vis2 := if e.landUrl ≠ origUrl ∧ 0 < depth then addUrl vis e.landUrl else vis
      runInteractions embed tc maxI maxT depth origUrl rest e.captured (c + 1) st2 vis2

mutual

/-- `crawlDynamicSite(url, depth, visitedUrls)` against the oracle `site`,
with `fuel` bounding the recursion depth of the interpreter (`none` = out
of fuel).  A visited url or negative depth returns immediately; otherwise
the url is marked visited, the initial content is chunked and embedded,
the interaction loop runs, and at `depth > 0` up to 5 parseable
same-hostname unvisited links are crawled sequentially at `depth - 1`. -/
def crawlFuel (site : Site) (embed : String → Option (List ℚ)) (tc : String → Nat)
    (maxI maxT : Nat) :
    Nat → String → Int → List String → RagState → Option (List String × RagState)
  | 0, _, _, _, _ => none
  | Nat.succ fuel, url, depth, vis, st =>
    if url ∈ vis ∨ depth < 0 then some (vis, st)
    else
      let vis1 := addUrl vis url
      if site.navFails url then some (vis1, st)
      else
        let st1 := appendChunks embed tc maxT st url url (site.pageMarkdown url) "initial"
        let r := runInteractions embed tc maxI maxT depth url (site.elements url)
          (site.pageMarkdown url) 0 st1 vis1
        if 0 < depth then
          let ls := ((site.links url).filter
            (fun l => site.parseable l && site.host l == site.host url &&
              decide (l ∉ r.2.2.2))).take 5
          crawlChildren site embed tc maxI maxT fuel ls (depth - 1) r.2.2.2 r.2.2.1
        else some (r.2.2.2, r.2.2.1)
termination_by fuel _ _ _ _ => (fuel, 0)

/-- Sequential recursion over the extracted links (the `for … of
sameDomainLinks` loop), threading the visited set and the state. -/
def crawlChildren (site : Site) (embed : String → Option (List ℚ)) (tc : String → Nat)
    (maxI maxT : Nat) :
    Nat → List String → Int → List String → RagState → Option (List String × RagState)
  | _, [], _, vis, st => some (vis, st)
  | fuel, l :: rest, depth, vis, st =>
    match crawlFuel site embed tc maxI maxT fuel l depth vis st with
    | none => none
    | some (vis2, st2) => crawlChildren site embed tc maxI maxT fuel rest depth vis2 st2
termination_by fuel ls _ _ _ => (fuel, ls.length + 1)

end

/-! ### Concrete instances used by witnesses and counterexamples -/

/-- An embedding client whose every call fails. -/
def embed0 : String → Option (List ℚ) := fun _ => none

/-- An embedding client returning the one-dimensional vector `[1]`. -/
def embed1 : String → Option (List ℚ) := fun _ => some [1]

/-- A token counter: one token per character. -/
def tcLen : String → Nat := fun s => s.data.length

/-- A token counter counting the non-whitespace-ish characters; it is
exact across paragraph and word joins. -/
def tcZero : String → Nat := fun _ => 0

/-- A concrete `SqrtModel` (its value on positives is irrelevant to every
claim). -/
def sqrtOne : SqrtModel where
  f := fun q => if q ≤ 0 then 0 else 1
  zero := by norm_num
  pos := fun q hq => by
    show (0 : ℚ) < if q ≤ 0 then 0 else 1
    rw [if_neg (not_le.mpr hq)]
    norm_num

/-- The empty knowledge-base state. -/
def st0 : RagState := { documents := [], vectorStore := [] }

/-! ### C2 — `cosineSimilarity` has no zero-magnitude guard -/

/-- C2: the claim says a zero-magnitude input makes `cosineSimilarity`
return the neutral score `0`.  It does not: the source divides by
`magA * magB` unguarded, so the zero vector `[0]` against itself produces
`0 / 0 = NaN` (a non-finite result, `none` in the model), not `0`. -/
theorem cosineSimilarity_zero_vector_not_neutral :
    cosineSimilarity sqrtOne [0] [0] = none ∧
    cosineSimilarity sqrtOne [0] [0] ≠ some 0 := by
  constructor
  · show jsDiv (dotProduct [0] [0]) (sqrtOne.f (sumSq [0]) * sqrtOne.f (sumSq [0])) = none
    norm_num [jsDiv, sumSq, sqrtOne]
  · intro h
    rw [show cosineSimilarity sqrtOne [0] [0] = none from by
      show jsDiv (dotProduct [0] [0]) (sqrtOne.f (sumSq [0]) * sqrtOne.f (sumSq [0])) = none
      norm_num [jsDiv, sumSq, sqrtOne]] at h
    cases h

/-! ### C9 — `importKnowledgeBase` error handling -/

/-- C9: a failed read/parse returns `false` with the state untouched; the
state changes only when an object parsed fully, in which case the call
returns `true` and the state is exactly the file's two arrays (missing
arrays defaulting to empty). -/
theorem importKnowledgeBase_no_partial_mutation :
    ∀ (st : RagState) (file : Option KBFile),
    ((file = none ∨ file = some KBFile.jnull) →
      importKnowledgeBase st file = (st, false)) ∧
    ((importKnowledgeBase st file).1 ≠ st →
      ∃ d v, file = some (KBFile.jobj d v) ∧
        importKnowledgeBase st file =
          ({ documents := d.getD [], vectorStore := v.getD [] }, true)) ∧
    ((importKnowledgeBase st file).2 = true →
      ∃ d v, file = some (KBFile.jobj d v) ∧
        (importKnowledgeBase st file).1 =
          { documents := d.getD [], vectorStore := v.getD [] }) := by
  intro st file
  match file with
  | none => exact ⟨fun _ => rfl, fun h => absurd rfl h, fun h => by cases h⟩
  | some KBFile.jnull => exact ⟨fun _ => rfl, fun h => absurd rfl h, fun h => by cases h⟩
  | some (KBFile.jobj d v) =>
    refine ⟨fun h => ?_, fun _ => ⟨d, v, rfl, rfl⟩, fun _ => ⟨d, v, rfl, rfl⟩⟩
    rcases h with h | h <;> cases h

theorem importKnowledgeBase_no_partial_mutation_witness :
    importKnowledgeBase st0 none = (st0, false) :=
  (importKnowledgeBase_no_partial_mutation st0 none).1 (Or.inl rfl)

/-! ### C1 — alignment of `documents` and `vectorStore` -/

/-- The parsed file itself satisfies the alignment invariant (with the
missing-array defaults applied).  `importKnowledgeBase` never checks
this. -/
def fileAligned (embed : String → Option (List ℚ)) : Option KBFile → Prop
  | some (KBFile.jobj d v) =>
    alignedKB embed { documents := d.getD [], vectorStore := v.getD [] }
  | _ => True

/-- A vector-store entry with no matching document, for the C1
counterexample file. -/
def strayVec : VecEntry := { url := "u", embedding := [1] }

/-- C1 (counterexample): from the empty — aligned — state,
`importKnowledgeBase` of a well-formed JSON object whose `documents` array
is absent but whose `vectorStore` holds one entry succeeds (`true`) and
leaves the two sequences with different lengths: the operation does not
preserve the invariant. -/
theorem importKnowledgeBase_breaks_alignment :
    alignedKB embed0 st0 ∧
    importKnowledgeBase st0 (some (KBFile.jobj none (some [strayVec]))) =
      ({ documents := [], vectorStore := [strayVec] }, true) ∧
    ¬ alignedKB embed0 { documents := [], vectorStore := [strayVec] } := by
  refine ⟨by decide, rfl, ?_⟩
  intro h
  exact absurd h.1 (by simp [strayVec])

/-- C1 (amended): every per-chunk append of `crawlDynamicSite` preserves
the alignment invariant (the two pushes happen together or not at all, and
the pushed entry pairs the chunk's url with the embedding of its content);
`importKnowledgeBase` replaces the state wholesale and yields an aligned
state only when the imported file's own arrays are aligned — nothing
validates this. -/
theorem appendChunk_import_alignment :
    ∀ (embed : String → Option (List ℚ)) (st : RagState), alignedKB embed st →
    (∀ url title chunk source,
      alignedKB embed (appendChunk embed st url title chunk source)) ∧
    (∀ file, fileAligned embed file →
      alignedKB embed (importKnowledgeBase st file).1) := by
  intro embed st hst
  constructor
  · intro url title chunk source
    unfold appendChunk
    cases hemb : embed chunk with
    | none => exact hst
    | some e =>
      obtain ⟨hlen, hpair⟩ := hst
      constructor
      · simp [hlen]
      · intro p hp
        rw [List.zip_append hlen] at hp
        rcases List.mem_append.mp hp with hp | hp
        · exact hpair p hp
        · rcases List.mem_singleton.mp hp with rfl
          exact ⟨rfl, hemb⟩
  · intro file hfile
    match file with
    | none => exact hst
    | some KBFile.jnull => exact hst
    | some (KBFile.jobj d v) => exact hfile

theorem appendChunk_import_alignment_witness :
    alignedKB embed1 (appendChunk embed1 st0 "u" "t" "c" "s") :=
  (appendChunk_import_alignment embed1 st0 (by decide)).1 "u" "t" "c" "s"

/-! ### C5 — a duplicate-content interaction and the interaction budget -/

/-- An element whose click re-captures exactly the text captured before
it. -/
def dupElem : ElemAct :=
  { category := "buttons", text := "More", fails := false,
    landUrl := "https://a", captured := "SAME" }

/-- C5 (counterexample): the claim says a duplicate-content interaction
still consumes one attempt of the `maxInteractions` budget.  It does not:
the `continue` fires before `interactionsCount++`, so after processing one
duplicate element the counter is still `0`, not `1`. -/
theorem duplicate_interaction_keeps_budget :
    runInteractions embed1 tcLen 5 100 0 "https://a" [dupElem] "SAME" 0 st0 [] =
      ("SAME", 0, st0, []) ∧
    (runInteractions embed1 tcLen 5 100 0 "https://a" [dupElem] "SAME" 0 st0 []).2.1 ≠ 1 := by
  constructor
  · rfl
  · intro h
    rw [show runInteractions embed1 tcLen 5 100 0 "https://a" [dupElem] "SAME" 0 st0 [] =
      ("SAME", 0, st0, []) from rfl] at h
    cases h

/-- C5 (amended): an interaction whose captured structured text is
byte-identical to the previous capture is skipped — nothing is appended,
the reference text and visited set stay unchanged — and it does NOT count
toward the `maxInteractions` budget: the loop continues on the remaining
elements with the same `interactionsCount`. -/
theorem duplicate_interaction_skipped_without_counting :
    ∀ (embed : String → Option (List ℚ)) (tc : String → Nat) (maxI maxT : Nat)
      (depth : Int) (origUrl : String) (e : ElemAct) (rest : List ElemAct)
      (md : String) (c : Nat) (st : RagState) (vis : List String),
    c < maxI → e.fails = false → e.captured = md →
    runInteractions embed tc maxI maxT depth origUrl (e :: rest) md c st vis =
      runInteractions embed tc maxI maxT depth origUrl rest md c st vis := by
  intro embed tc maxI maxT depth origUrl e rest md c st vis hc hfail hdup
  rw [runInteractions, if_neg (Nat.not_le.mpr hc), hfail]
  simp only [Bool.false_eq_true, if_false, if_pos hdup]

theorem duplicate_interaction_skipped_without_counting_witness :
    runInteractions embed1 tcLen 5 100 0 "https://a" [dupElem] "SAME" 0 st0 [] =
      runInteractions embed1 tcLen 5 100 0 "https://a" [] "SAME" 0 st0 [] :=
  duplicate_interaction_skipped_without_counting embed1 tcLen 5 100 0 "https://a"
    dupElem [] "SAME" 0 st0 [] (by decide) rfl rfl

/-! ### C6 — `BM25Ranker.search` ordering, filtering and truncation -/

theorem scoreLe_total {α : Type} (a b : α × ℚ) :
    scoreLe a b = true ∨ scoreLe b a = true := by
  unfold scoreLe
  rcases le_total a.2 b.2 with h | h
  · exact Or.inr (decide_eq_true h)
  · exact Or.inl (decide_eq_true h)

theorem scoreLe_trans {α : Type} (a b c : α × ℚ)
    (h1 : scoreLe a b = true) (h2 : scoreLe b c = true) : scoreLe a c = true := by
  unfold scoreLe at h1 h2 ⊢
  exact decide_eq_true (le_trans (of_decide_eq_true h2) (of_decide_eq_true h1))

/-- The sorted `scores` list of `BM25Ranker.search`. -/
def bm25Sorted {α : Type} (lib : List (List String) → List String → Nat → ℚ)
    (getF : α → String → Option String) (docs : List α)
    (weights : List (String × ℚ)) (query : String) : List (α × ℚ) :=
  sortLe scoreLe (bm25Scored lib getF docs weights query)

/-- C6: `BM25Ranker.search(query, topK)` returns exactly the positively
scored documents of the stably descending-sorted score list, truncated to
`topK` — the source's `slice`-then-`filter` equals
`filter`-then-truncate — the sorted list is descending in total weighted
score, and comparator ties keep their original document order. -/
theorem bm25RankerSearch_spec :
    ∀ {α : Type} (lib : List (List String) → List String → Nat → ℚ)
      (getF : α → String → Option String) (docs : List α)
      (weights : List (String × ℚ)) (query : String) (topK : Nat),
    bm25RankerSearch lib getF docs weights query topK =
      (((bm25Sorted lib getF docs weights query).filter
        (fun p => decide (0 < p.2))).take topK).map Prod.fst ∧
    (bm25Sorted lib getF docs weights query).Pairwise (fun a b => b.2 ≤ a.2) ∧
    ∀ q : ℚ, (bm25Sorted lib getF docs weights query).filter (fun p => decide (p.2 = q)) =
      (bm25Scored lib getF docs weights query).filter (fun p => decide (p.2 = q)) := by
  intro α lib getF docs weights query topK
  have hpw : (bm25Sorted lib getF docs weights query).Pairwise
      (fun a b => scoreLe a b = true) :=
    pairwise_sortLe scoreLe scoreLe_total scoreLe_trans _
  have hpw2 : (bm25Sorted lib getF docs weights query).Pairwise
      (fun a b : α × ℚ => b.2 ≤ a.2) :=
    hpw.imp (fun h => of_decide_eq_true h)
  refine ⟨?_, hpw2, ?_⟩
  · show (((bm25Sorted lib getF docs weights query).take topK).filter
        (fun p => decide (0 < p.2))).map Prod.fst = _
    congr 1
    have hdc : ∀ a b : α × ℚ, b.2 ≤ a.2 →
        decide (0 < b.2) = true → decide (0 < a.2) = true := by
      intro a b h hb
      exact decide_eq_true (lt_of_lt_of_le (of_decide_eq_true hb) h)
    rw [filter_eq_takeWhile_of_pairwise _ _ (hpw2.sublist (List.take_sublist _ _)) hdc,
      takeWhile_take_comm,
      ← filter_eq_takeWhile_of_pairwise _ _ hpw2 hdc]
  · intro q
    apply filter_sortLe
    intro a b ha hb
    have : a.2 = q := of_decide_eq_true ha
    have hb2 : b.2 = q := of_decide_eq_true hb
    exact decide_eq_true (le_of_eq (hb2.trans this.symm))

/-! ### C10 — documents lacking a configured field -/

/-- Modelled from the spec: the per-field scoring of the external `BM25`
library class (`new BM25(fieldCorpus)` / `.score(queryTokens, idx)`), which
is not part of this repository.  Standard BM25: per query term,
`idf * tf * (k1 + 1) / (tf + k1 * (1 - b + b * dl / avgdl))` with term
frequency `tf`, document length `dl` and average document length `avgdl`;
the spec fixes no idf formula, so the idf weighting is an arbitrary
function of the corpus and the term. -/
def bm25SpecScore (k1 b : ℚ) (idf : List (List String) → String → ℚ)
    (corpus : List (List String)) (qtoks : List String) (idx : Nat) : ℚ :=
  let doc := (corpus[idx]?).getD []
  let dl : ℚ := doc.length
  let avgdl : ℚ := ((corpus.map (fun d => (d.length : ℚ))).sum) / corpus.length
  (qtoks.map (fun t =>
    let tf : ℚ := ((doc.filter (fun w => w = t)).length : ℚ)
    idf corpus t * (tf * (k1 + 1)) / (tf + k1 * (1 - b + b * dl / avgdl)))).sum

theorem bm25SpecScore_empty_doc (k1 b : ℚ) (idf : List (List String) → String → ℚ)
    (corpus : List (List String)) (qtoks : List String) (idx : Nat)
    (h : corpus[idx]? = some []) :
    bm25SpecScore k1 b idf corpus qtoks idx = 0 := by
  unfold bm25SpecScore
  rw [h]
  apply List.sum_eq_zero
  intro x hx
  rcases List.mem_map.mp hx with ⟨t, _, rfl⟩
  simp

theorem tokenize_empty : tokenize "" = [] := by decide

/-- C10: a document whose `title` property is absent is tokenized from the
empty string (`doc[field] || ''`): its entry in the title field corpus is
the empty token list, the spec-modelled BM25 score of that entry is `0`
for every query, and the document still occupies its position in the
scored candidate list with exactly the content field's weighted
contribution — it raises no error and is not excluded. -/
theorem bm25_missing_field_scores_zero :
    ∀ {α : Type} (getF : α → String → Option String) (docs : List α)
      (k1 b : ℚ) (idf : List (List String) → String → ℚ)
      (query : String) (i : Nat) (d : α),
    docs[i]? = some d → getF d "title" = none →
    (fieldCorpus getF docs "title")[i]? = some [] ∧
    bm25SpecScore k1 b idf (fieldCorpus getF docs "title") (tokenize query) i = 0 ∧
    (bm25Scored (bm25SpecScore k1 b idf) getF docs [("title", 2), ("content", 1)] query)[i]? =
      some (d, bm25SpecScore k1 b idf (fieldCorpus getF docs "content") (tokenize query) i) ∧
    (bm25Scored (bm25SpecScore k1 b idf) getF docs [("title", 2), ("content", 1)] query).length =
      docs.length := by
  intro α getF docs k1 b idf query i d hget htitle
  have hcorpus : (fieldCorpus getF docs "title")[i]? = some [] := by
    unfold fieldCorpus
    rw [List.getElem?_map, hget, Option.map_some', htitle]
    simp [tokenize_empty]
  have hzero := bm25SpecScore_empty_doc k1 b idf _ (tokenize query) i hcorpus
  refine ⟨hcorpus, hzero, ?_, ?_⟩
  · unfold bm25Scored
    rw [List.getElem?_map, List.getElem?_enum, hget, Option.map_some', Option.map_some']
    unfold totalScore
    simp only [List.map_cons, List.map_nil, List.sum_cons, List.sum_nil]
    rw [hzero]
    norm_num
  · unfold bm25Scored
    rw [List.length_map, List.enum_length]

/-- A document shape for the C10 witness: the optional value is the
(possibly absent) `title` property. -/
def getFieldC10 (d : Option String) (field : String) : Option String :=
  if field = "title" then d else some "hello world content"

theorem bm25_missing_field_scores_zero_witness :
    bm25SpecScore 1 1 (fun _ _ => 1)
      (fieldCorpus getFieldC10 [some "t", none] "title") (tokenize "hello") 1 = 0 :=
  (bm25_missing_field_scores_zero getFieldC10 [some "t", none] 1 1 (fun _ _ => 1)
    "hello" 1 none (by decide) (by decide)).2.1

/-! ### C8 — termination of the crawl state machine -/

theorem crawl_isSome_aux (site : Site) (embed : String → Option (List ℚ))
    (tc : String → Nat) (maxI maxT : Nat) : ∀ fuel : Nat,
    (∀ url (depth : Int) vis st, depth.toNat < fuel →
      (crawlFuel site embed tc maxI maxT fuel url depth vis st).isSome = true) ∧
    (∀ ls (depth : Int) vis st, depth.toNat < fuel →
      (crawlChildren site embed tc maxI maxT fuel ls depth vis st).isSome = true) := by
  intro fuel
  induction fuel with
  | zero =>
    exact ⟨fun url depth vis st h => absurd h (by omega),
      fun ls depth vis st h => absurd h (by omega)⟩
  | succ fuel ih =>
    have hcf : ∀ url (depth : Int) vis st, depth.toNat < fuel + 1 →
        (crawlFuel site embed tc maxI maxT (fuel + 1) url depth vis st).isSome = true := by
      intro url depth vis st hd
      rw [crawlFuel]
      by_cases h1 : url ∈ vis ∨ depth < 0
      · rw [if_pos h1]
        rfl
      · rw [if_neg h1]
        by_cases h2 : site.navFails url = true
        · simp only [h2, if_true]
          rfl
        · simp only [h2, Bool.false_eq_true, if_false]
          by_cases h3 : (0 : Int) < depth
          · simp only [if_pos h3]
            exact ih.2 _ _ _ _ (by omega)
          · simp only [if_neg h3]
            rfl
    refine ⟨hcf, ?_⟩
    intro ls
    induction ls with
    | nil =>
      intro depth vis st _
      rw [crawlChildren]
      rfl
    | cons l rest ihls =>
      intro depth vis st hd
      rw [crawlChildren]
      cases hc : crawlFuel site embed tc maxI maxT (fuel + 1) l depth vis st with
      | none =>
        have := hcf l depth vis st hd
        rw [hc] at this
        cases this
      | some p =>
        obtain ⟨vis2, st2⟩ := p
        simp only [hc]
        exact ihls depth vis2 st2 hd

/-- C8: the crawl state machine terminates on every site, including sites
with cyclic same-domain links: an invocation on a visited url or with
negative depth returns immediately with nothing changed, and any fuel
exceeding the starting depth suffices for the interpreter to finish
(recursion only happens at `depth - 1` on not-yet-visited links, so the
recursion depth is bounded by the crawl depth). -/
theorem crawlDynamicSite_terminates :
    ∀ (site : Site) (embed : String → Option (List ℚ)) (tc : String → Nat)
      (maxI maxT : Nat),
    (∀ (fuel : Nat) url (depth : Int) vis st, url ∈ vis ∨ depth < 0 →
      crawlFuel site embed tc maxI maxT (fuel + 1) url depth vis st = some (vis, st)) ∧
    (∀ (fuel : Nat) url (depth : Int) vis st, depth.toNat < fuel →
      (crawlFuel site embed tc maxI maxT fuel url depth vis st).isSome = true) := by
  intro site embed tc maxI maxT
  constructor
  · intro fuel url depth vis st h
    rw [crawlFuel, if_pos h]
  · intro fuel url depth vis st h
    exact (crawl_isSome_aux site embed tc maxI maxT fuel).1 url depth vis st h

/-- A two-page site whose pages link to each other: the crawl must not
loop on the `a → b → a → …` cycle. -/
def siteCyc : Site where
  navFails := fun _ => false
  pageMarkdown := fun _ => "hello"
  elements := fun _ => []
  links := fun u => if u = "a" then ["b"] else ["a"]
  parseable := fun _ => true
  host := fun _ => "h"

theorem crawlDynamicSite_terminates_witness :
    crawlFuel siteCyc embed0 tcLen 5 100 1 "a" 0 ["a"] st0 = some (["a"], st0) ∧
    (crawlFuel siteCyc embed0 tcLen 5 100 3 "a" 2 [] st0).isSome = true :=
  ⟨(crawlDynamicSite_terminates siteCyc embed0 tcLen 5 100).1 0 "a" 0 ["a"] st0
      (Or.inl (by decide)),
   (crawlDynamicSite_terminates siteCyc embed0 tcLen 5 100).2 3 "a" 2 [] st0 (by decide)⟩

/-! ### C4 and C7 — the chunker's token bound and segment non-emptiness -/

theorem str_eq_empty_of_length (s : String) (h : s.length = 0) : s = "" := by
  apply String.ext
  have h2 : s.data.length = 0 := h
  rw [List.length_eq_zero] at h2
  rw [h2]

theorem joinSep_ne_empty (sep : String) :
    ∀ (l : List String), l ≠ [] → (∀ s ∈ l, s ≠ "") → joinSep sep l ≠ ""
  | [], h, _ => absurd rfl h
  | [s], _, hs => by
    show s ≠ ""
    exact hs s (List.mem_cons_self s [])
  | s :: s2 :: rest, _, hs => by
    show s ++ sep ++ joinSep sep (s2 :: rest) ≠ ""
    intro he
    have hlen : (s ++ sep ++ joinSep sep (s2 :: rest)).length = 0 := by
      rw [he]
      rfl
    rw [String.length_append, String.length_append] at hlen
    exact hs s (List.mem_cons_self s _) (str_eq_empty_of_length s (by omega))

/-- The word loop only emits segments that are either within the counted
budget or a single over-length word of the source word list (plus, when
the first word alone overflows, the join of the empty group, whose count
is `tc "" = 0`). -/
theorem wordLoop_chunks (tc : String → Nat) (maxT : Nat) (H0 : tc "" = 0)
    (H2 : ∀ l : List String, l ≠ [] →
      tc (joinSep " " l) ≤ (l.map (fun w => tc (w ++ " "))).sum)
    (Wsrc : List String) :
    ∀ (ws temp : List String) (tl : Nat),
    tl = (temp.map (fun w => tc (w ++ " "))).sum →
    (tl ≤ maxT ∨ ∃ w, temp = [w] ∧ maxT < tc (w ++ " ")) →
    (∀ w ∈ temp, w ∈ Wsrc) → (∀ w ∈ ws, w ∈ Wsrc) →
    ∀ seg ∈ wordLoop tc maxT ws temp tl,
      tc seg ≤ maxT ∨ (seg ∈ Wsrc ∧ maxT < tc (seg ++ " "))
  | [], temp, tl, hsum, hinv, htemp, _, seg, hseg => by
    rw [wordLoop] at hseg
    rcases htempE : temp.isEmpty with _ | _
    · rw [htempE] at hseg
      rw [if_neg (by simp)] at hseg
      rcases List.mem_singleton.mp hseg with rfl
      have htempne : temp ≠ [] := by
        intro h
        rw [h] at htempE
        cases htempE
      rcases hinv with hle | ⟨w, rfl, hover⟩
      · exact Or.inl (le_trans (H2 temp htempne) (hsum ▸ hle))
      · refine Or.inr ⟨htemp w (List.mem_cons_self w []), ?_⟩
        show maxT < tc (joinSep " " [w] ++ " ")
        exact hover
    · rw [htempE] at hseg
      rw [if_pos rfl] at hseg
      cases hseg
  | w :: ws, temp, tl, hsum, hinv, htemp, hws, seg, hseg => by
    rw [wordLoop] at hseg
    by_cases hfit : tl + tc (w ++ " ") ≤ maxT
    · rw [if_pos hfit] at hseg
      refine wordLoop_chunks tc maxT H0 H2 Wsrc ws (temp ++ [w]) _ ?_ (Or.inl hfit) ?_
        (fun x hx => hws x (List.mem_cons_of_mem w hx)) seg hseg
      · rw [hsum, List.map_append, List.sum_append]
        simp
      · intro x hx
        rcases List.mem_append.mp hx with hx | hx
        · exact htemp x hx
        · rcases List.mem_singleton.mp hx with rfl
          exact hws x (List.mem_cons_self x ws)
    · rw [if_neg hfit] at hseg
      rcases List.mem_cons.mp hseg with rfl | hseg
      · rcases htempE : temp with _ | ⟨t1, trest⟩
        · show tc (joinSep " " []) ≤ maxT ∨ _
          exact Or.inl (by rw [show joinSep " " [] = "" from rfl, H0]; exact Nat.zero_le _)
        · rw [← htempE]
          have htempne : temp ≠ [] := by
            rw [htempE]
            exact List.cons_ne_nil t1 trest
          rcases hinv with hle | ⟨x, hx, hover⟩
          · exact Or.inl (le_trans (H2 temp htempne) (hsum ▸ hle))
          · rcases hx
            refine Or.inr ⟨htemp x (List.mem_cons_self x []), hover⟩
      · refine wordLoop_chunks tc maxT H0 H2 Wsrc ws [w] _ (by simp) ?_ ?_
          (fun x hx => hws x (List.mem_cons_of_mem w hx)) seg hseg
        · by_cases hw : tc (w ++ " ") ≤ maxT
          · exact Or.inl hw
          · exact Or.inr ⟨w, rfl, Nat.not_le.mp hw⟩
        · intro x hx
          rcases List.mem_singleton.mp hx with rfl
          exact hws x (List.mem_cons_self x ws)

/-- The paragraph loop only emits segments that are within the counted
budget, a single over-length paragraph, or a word-loop segment of an
over-length paragraph. -/
theorem paraLoop_chunks (tc : String → Nat) (maxT : Nat) (H0 : tc "" = 0)
    (H1 : ∀ l : List String, l ≠ [] → tc (joinSep "\n\n" l) ≤ (l.map tc).sum)
    (H2 : ∀ l : List String, l ≠ [] →
      tc (joinSep " " l) ≤ (l.map (fun w => tc (w ++ " "))).sum)
    (Psrc : List String) :
    ∀ (ps cur : List String) (cl : Nat),
    cl = (cur.map tc).sum →
    (cl ≤ maxT ∨ ∃ p, cur = [p] ∧ maxT < tc p) →
    (∀ p ∈ cur, p ∈ Psrc) → (∀ p ∈ ps, p ∈ Psrc) →
    ∀ seg ∈ paraLoop tc maxT ps cur cl,
      tc seg ≤ maxT ∨ (seg ∈ Psrc ∧ maxT < tc seg) ∨
      (∃ p ∈ Psrc, seg ∈ jsSplit " " p ∧ maxT < tc (seg ++ " "))
  | [], cur, cl, hsum, hinv, hcur, _, seg, hseg => by
    rw [paraLoop] at hseg
    rcases hcurE : cur.isEmpty with _ | _
    · rw [hcurE] at hseg
      rw [if_neg (by simp)] at hseg
      rcases List.mem_singleton.mp hseg with rfl
      have hcurne : cur ≠ [] := by
        intro h
        rw [h] at hcurE
        cases hcurE
      rcases hinv with hle | ⟨p, rfl, hover⟩
      · exact Or.inl (le_trans (H1 cur hcurne) (hsum ▸ hle))
      · refine Or.inr (Or.inl ⟨hcur p (List.mem_cons_self p []), ?_⟩)
        show maxT < tc (joinSep "\n\n" [p])
        exact hover
    · rw [hcurE] at hseg
      rw [if_pos rfl] at hseg
      cases hseg
  | p :: ps, cur, cl, hsum, hinv, hcur, hps, seg, hseg => by
    rw [paraLoop] at hseg
    by_cases hfit : cl + tc p ≤ maxT
    · rw [if_pos hfit] at hseg
      refine paraLoop_chunks tc maxT H0 H1 H2 Psrc ps (cur ++ [p]) _ ?_ (Or.inl hfit) ?_
        (fun x hx => hps x (List.mem_cons_of_mem p hx)) seg hseg
      · rw [hsum, List.map_append, List.sum_append]
        simp
      · intro x hx
        rcases List.mem_append.mp hx with hx | hx
        · exact hcur x hx
        · rcases List.mem_singleton.mp hx with rfl
          exact hps x (List.mem_cons_self x ps)
    · rw [if_neg hfit] at hseg
      rcases hcurE : cur.isEmpty with _ | _
      · rw [hcurE] at hseg
        rw [if_neg (by simp)] at hseg
        have hcurne : cur ≠ [] := by
          intro h
          rw [h] at hcurE
          cases hcurE
        rcases List.mem_cons.mp hseg with rfl | hseg
        · rcases hinv with hle | ⟨x, hx, hover⟩
          · exact Or.inl (le_trans (H1 cur hcurne) (hsum ▸ hle))
          · rcases hx
            exact Or.inr (Or.inl ⟨hcur x (List.mem_cons_self x []), hover⟩)
        · refine paraLoop_chunks tc maxT H0 H1 H2 Psrc ps [p] _ (by simp) ?_ ?_
            (fun x hx => hps x (List.mem_cons_of_mem p hx)) seg hseg
          · by_cases hp : tc p ≤ maxT
            · exact Or.inl hp
            · exact Or.inr ⟨p, rfl, Nat.not_le.mp hp⟩
          · intro x hx
            rcases List.mem_singleton.mp hx with rfl
            exact hps x (List.mem_cons_self x ps)
      · rw [hcurE] at hseg
        rw [if_pos rfl] at hseg
        rcases List.mem_append.mp hseg with hseg | hseg
        · have hp : p ∈ Psrc := hps p (List.mem_cons_self p ps)
          rcases wordLoop_chunks tc maxT H0 H2 (jsSplit " " p) (jsSplit " " p) [] 0 rfl
            (Or.inl (Nat.zero_le _)) (by simp) (fun x hx => hx) seg hseg with hle | ⟨hmem, hover⟩
          · exact Or.inl hle
          · exact Or.inr (Or.inr ⟨p, hp, hmem, hover⟩)
        · exact paraLoop_chunks tc maxT H0 H1 H2 Psrc ps [] 0 rfl
            (Or.inl (Nat.zero_le _)) (by simp)
            (fun x hx => hps x (List.mem_cons_of_mem p hx)) seg hseg

/-- C4 (counterexample): with one token per character and `maxTokens = 3`,
the two-word paragraph `"bb cc"` overflows a non-empty current chunk, so
the source pushes the current chunk and carries the whole over-length
paragraph forward without ever word-splitting it: the returned segment
`"bb cc"` has 5 tokens `> 3` and is not a single word. -/
theorem chunkText_segment_exceeds_bound :
    chunkText tcLen "aa\n\nbb cc" 3 = ["aa", "bb cc"] ∧
    "bb cc" ∈ chunkText tcLen "aa\n\nbb cc" 3 ∧
    1 ≤ 3 ∧ 3 < tcLen "bb cc" ∧ (jsSplit " " "bb cc").length = 2 := by decide

/-- C4 (amended): provided the token counter vanishes on the empty string
and never counts a paragraph/word join above the sum of its parts' counts
(the counts the source accumulates), every returned segment's token count
is at most `maxTokens`, except a segment that is a single paragraph of the
input whose own token count exceeds `maxTokens` — in particular a single
over-length word (counted with its trailing space) of such a paragraph. -/
theorem chunkText_token_bound :
    ∀ (tc : String → Nat) (text : String) (maxT : Nat),
    1 ≤ maxT → tc "" = 0 →
    (∀ l : List String, l ≠ [] → tc (joinSep "\n\n" l) ≤ (l.map tc).sum) →
    (∀ l : List String, l ≠ [] →
      tc (joinSep " " l) ≤ (l.map (fun w => tc (w ++ " "))).sum) →
    ∀ seg ∈ chunkText tc text maxT,
      tc seg ≤ maxT ∨
      (seg ∈ jsSplit "\n\n" text ∧ maxT < tc seg) ∨
      (∃ p ∈ jsSplit "\n\n" text, seg ∈ jsSplit " " p ∧ maxT < tc (seg ++ " ")) := by
  intro tc text maxT _ H0 H1 H2 seg hseg
  unfold chunkText at hseg
  by_cases hfit : tc text ≤ maxT
  · rw [if_pos hfit] at hseg
    rcases List.mem_singleton.mp hseg with rfl
    exact Or.inl hfit
  · rw [if_neg hfit] at hseg
    exact paraLoop_chunks tc maxT H0 H1 H2 (jsSplit "\n\n" text) (jsSplit "\n\n" text)
      [] 0 rfl (Or.inl (Nat.zero_le _)) (by simp) (fun x hx => hx) seg hseg

theorem chunkText_token_bound_witness :
    tcZero "hello" ≤ 1 ∨
    ("hello" ∈ jsSplit "\n\n" "hello" ∧ 1 < tcZero "hello") ∨
    (∃ p ∈ jsSplit "\n\n" "hello", "hello" ∈ jsSplit " " p ∧ 1 < tcZero ("hello" ++ " ")) :=
  chunkText_token_bound tcZero "hello" 1 (by decide) rfl
    (fun _ _ => Nat.zero_le _) (fun _ _ => Nat.zero_le _) "hello" (by decide)

/-- C7 (counterexample): the empty input has zero tokens, so it is
returned whole as the single segment `""`; and even for a non-empty input,
an over-length first word makes the word loop push the join of the empty
accumulator — `chunkText("ab cd", 1)` returns `["", "ab", "cd"]`. -/
theorem chunkText_returns_empty_segment :
    chunkText tcLen "" 1 = [""] ∧ "" ∈ chunkText tcLen "" 1 ∧
    chunkText tcLen "ab cd" 1 = ["", "ab", "cd"] ∧ "" ∈ chunkText tcLen "ab cd" 1 := by
  decide

theorem wordLoop_ne_empty (tc : String → Nat) (maxT : Nat) (Wsrc : List String)
    (hW : ∀ w ∈ Wsrc, w ≠ "" ∧ tc (w ++ " ") ≤ maxT) :
    ∀ (ws temp : List String) (tl : Nat),
    (∀ w ∈ temp, w ∈ Wsrc) → (∀ w ∈ ws, w ∈ Wsrc) →
    (temp = [] → tl = 0) →
    ∀ seg ∈ wordLoop tc maxT ws temp tl, seg ≠ ""
  | [], temp, tl, htemp, _, _, seg, hseg => by
    rw [wordLoop] at hseg
    rcases htempE : temp.isEmpty with _ | _
    · rw [htempE] at hseg
      rw [if_neg (by simp)] at hseg
      rcases List.mem_singleton.mp hseg with rfl
      refine joinSep_ne_empty " " temp ?_ (fun s hs => (hW s (htemp s hs)).1)
      intro h
      rw [h] at htempE
      cases htempE
    · rw [htempE] at hseg
      rw [if_pos rfl] at hseg
      cases hseg
  | w :: ws, temp, tl, htemp, hws, htl, seg, hseg => by
    rw [wordLoop] at hseg
    by_cases hfit : tl + tc (w ++ " ") ≤ maxT
    · rw [if_pos hfit] at hseg
      refine wordLoop_ne_empty tc maxT Wsrc hW ws (temp ++ [w]) _ ?_
        (fun x hx => hws x (List.mem_cons_of_mem w hx)) (by simp) seg hseg
      intro x hx
      rcases List.mem_append.mp hx with hx | hx
      · exact htemp x hx
      · rcases List.mem_singleton.mp hx with rfl
        exact hws x (List.mem_cons_self x ws)
    · rw [if_neg hfit] at hseg
      rcases List.mem_cons.mp hseg with rfl | hseg
      · have htempne : temp ≠ [] := by
          intro h
          rw [htl h, Nat.zero_add] at hfit
          exact hfit (hW w (hws w (List.mem_cons_self w ws))).2
        exact joinSep_ne_empty " " temp htempne (fun s hs => (hW s (htemp s hs)).1)
      · refine wordLoop_ne_empty tc maxT Wsrc hW ws [w] _ ?_
          (fun x hx => hws x (List.mem_cons_of_mem w hx))
          (fun h => absurd h (List.cons_ne_nil w [])) seg hseg
        intro x hx
        rcases List.mem_singleton.mp hx with rfl
        exact hws x (List.mem_cons_self x ws)

theorem paraLoop_ne_empty (tc : String → Nat) (maxT : Nat) (Psrc : List String)
    (hPW : ∀ p ∈ Psrc, ∀ w ∈ jsSplit " " p, w ≠ "" ∧ tc (w ++ " ") ≤ maxT)
    (hP : ∀ p ∈ Psrc, p ≠ "") :
    ∀ (ps cur : List String) (cl : Nat),
    (∀ p ∈ cur, p ∈ Psrc) → (∀ p ∈ ps, p ∈ Psrc) →
    ∀ seg ∈ paraLoop tc maxT ps cur cl, seg ≠ ""
  | [], cur, cl, hcur, _, seg, hseg => by
    rw [paraLoop] at hseg
    rcases hcurE : cur.isEmpty with _ | _
    · rw [hcurE] at hseg
      rw [if_neg (by simp)] at hseg
      rcases List.mem_singleton.mp hseg with rfl
      refine joinSep_ne_empty "\n\n" cur ?_ (fun s hs => hP s (hcur s hs))
      intro h
      rw [h] at hcurE
      cases hcurE
    · rw [hcurE] at hseg
      rw [if_pos rfl] at hseg
      cases hseg
  | p :: ps, cur, cl, hcur, hps, seg, hseg => by
    rw [paraLoop] at hseg
    by_cases hfit : cl + tc p ≤ maxT
    · rw [if_pos hfit] at hseg
      refine paraLoop_ne_empty tc maxT Psrc hPW hP ps (cur ++ [p]) _ ?_
        (fun x hx => hps x (List.mem_cons_of_mem p hx)) seg hseg
      intro x hx
      rcases List.mem_append.mp hx with hx | hx
      · exact hcur x hx
      · rcases List.mem_singleton.mp hx with rfl
        exact hps x (List.mem_cons_self x ps)
    · rw [if_neg hfit] at hseg
      rcases hcurE : cur.isEmpty with _ | _
      · rw [hcurE] at hseg
        rw [if_neg (by simp)] at hseg
        have hcurne : cur ≠ [] := by
          intro h
          rw [h] at hcurE
          cases hcurE
        rcases List.mem_cons.mp hseg with rfl | hseg
        · exact joinSep_ne_empty "\n\n" cur hcurne (fun s hs => hP s (hcur s hs))
        · refine paraLoop_ne_empty tc maxT Psrc hPW hP ps [p] _ ?_
            (fun x hx => hps x (List.mem_cons_of_mem p hx)) seg hseg
          intro x hx
          rcases List.mem_singleton.mp hx with rfl
          exact hps x (List.mem_cons_self x ps)
      · rw [hcurE] at hseg
        rw [if_pos rfl] at hseg
        rcases List.mem_append.mp hseg with hseg | hseg
        · exact wordLoop_ne_empty tc maxT (jsSplit " " p)
            (hPW p (hps p (List.mem_cons_self p ps))) (jsSplit " " p) [] 0
            (by simp) (fun x hx => hx) (fun _ => rfl) seg hseg
        · exact paraLoop_ne_empty tc maxT Psrc hPW hP ps [] 0 (by simp)
            (fun x hx => hps x (List.mem_cons_of_mem p hx)) seg hseg

/-- C7 (amended): provided the input text is non-empty, every
space-separated word of every blank-line-separated paragraph is non-empty
(no doubled separators), and no single word's counted tokens exceed
`maxTokens`, no returned segment is the empty string.  (The excluded
situations do return `""`: see the counterexample.) -/
theorem chunkText_no_empty_segment :
    ∀ (tc : String → Nat) (text : String) (maxT : Nat),
    text ≠ "" →
    (∀ p ∈ jsSplit "\n\n" text, ∀ w ∈ jsSplit " " p, w ≠ "" ∧ tc (w ++ " ") ≤ maxT) →
    ∀ seg ∈ chunkText tc text maxT, seg ≠ "" := by
  intro tc text maxT htext hw seg hseg
  unfold chunkText at hseg
  by_cases hfit : tc text ≤ maxT
  · rw [if_pos hfit] at hseg
    rcases List.mem_singleton.mp hseg with rfl
    exact htext
  · rw [if_neg hfit] at hseg
    refine paraLoop_ne_empty tc maxT (jsSplit "\n\n" text) hw ?_
      (jsSplit "\n\n" text) [] 0 (by simp) (fun x hx => hx) seg hseg
    intro p hp hpe
    rcases hpe
    have : ("" : String) ∈ jsSplit " " "" := by decide
    exact (hw "" hp "" this).1 rfl

theorem chunkText_no_empty_segment_witness :
    ("aa" : String) ≠ "" :=
  chunkText_no_empty_segment tcLen "aa\n\nbb cc" 3 (by decide) (by decide) "aa" (by decide)

/-! ### C3 — fusion priority in `hybridSearch`

The counterexample state: document index 0 (`cd1`) matches the query both
semantically and lexically; indices 1–3 are three identical chunks
(`cd2`, same url, same content, hence one shared fusion key) that only
BM25 retrieves; indices 4–6 are fillers that only semantic search
retrieves.  The three BM25 occurrences of `cd2`'s key alias onto one map
entry, which gains `+1.0` twice and is marked `inBoth` although its key
never appears in the semantic results, ending with score `2.5 > 2.0` —
ahead of the genuinely-in-both `cd1`. -/

def cd1 : Doc := { url := "u1", title := "t1", content := "alpha", source := "s" }

def cd2 : Doc := { url := "u2", title := "t2", content := "dup", source := "s" }

def cf1 : Doc := { url := "w1", title := "t", content := "fill one", source := "s" }

def cf2 : Doc := { url := "w2", title := "t", content := "fill two", source := "s" }

def cf3 : Doc := { url := "w3", title := "t", content := "fill three", source := "s" }

def cDocs : List Doc := [cd1, cd2, cd2, cd2, cf1, cf2, cf3]

def cVecs : List VecEntry :=
  [{ url := "u1", embedding := [1] }, { url := "u2", embedding := [-1] },
   { url := "u2", embedding := [-1] }, { url := "u2", embedding := [-1] },
   { url := "w1", embedding := [1] }, { url := "w2", embedding := [1] },
   { url := "w3", embedding := [1] }]

def cState : RagState := { documents := cDocs, vectorStore := cVecs }

/-- The external BM25 model of the counterexample: a fixed per-index score
table (the same for both fields). -/
def cLib : List (List String) → List String → Nat → ℚ :=
  fun _ _ idx => [1, 10, 10, 10, 0, 0, 0].getD idx 0

theorem cos_pos_eval : cosineSimilarity sqrtOne [1] [1] = some 1 := by
  norm_num [cosineSimilarity, jsDiv, dotProduct, sumSq, sqrtOne]

theorem cos_neg_eval : cosineSimilarity sqrtOne [1] [-1] = some (-1) := by
  norm_num [cosineSimilarity, jsDiv, dotProduct, sumSq, sqrtOne]

theorem semanticSearch_eval :
    semanticSearch sqrtOne cState (some [1]) 4 = [cd1, cf1, cf2, cf3] := by
  show (((sortLe (fun a b : Nat × ℚ => decide (b.2 ≤ a.2))
    (cState.vectorStore.enum.map
      (fun p => (p.1, (cosineSimilarity sqrtOne [1] p.2.embedding).getD 0)))).take 4).filterMap
      (fun p => cState.documents.get? p.1)) = [cd1, cf1, cf2, cf3]
  rw [show cState.vectorStore.enum.map
      (fun p => (p.1, (cosineSimilarity sqrtOne [1] p.2.embedding).getD 0)) =
      [(0, 1), (1, -1), (2, -1), (3, -1), (4, 1), (5, 1), (6, 1)] from by
    simp [cState, cVecs, List.enum, List.enumFrom, cos_pos_eval, cos_neg_eval]]
  norm_num [sortLe, insLe, cState, cDocs]
  decide

theorem bm25Search_eval :
    bm25RankerSearch cLib docGetField cDocs [("title", 2), ("content", 1)] "q" 4 =
      [cd2, cd2, cd2, cd1] := by
  unfold bm25RankerSearch
  rw [show bm25Scored cLib docGetField cDocs [("title", 2), ("content", 1)] "q" =
      [(cd1, 3), (cd2, 30), (cd2, 30), (cd2, 30), (cf1, 0), (cf2, 0), (cf3, 0)] from by
    norm_num [bm25Scored, totalScore, cLib, cDocs, List.enum, List.enumFrom]]
  norm_num [sortLe, insLe, scoreLe]

theorem fuseResults_eval :
    fuseResults [cd1, cf1, cf2, cf3] [cd2, cd2, cd2, cd1] 2 = [cd2, cd1] := by
  norm_num [fuseResults, bmStep, setEntry, lookupEntry, docKey, takeChars,
    cd1, cd2, cf1, cf2, cf3, sortLe, insLe, fuseLe, List.foldl]

/-- C3 (counterexample): in the concrete state above, `cd1` appears in
both result sets and `cd2` only in the BM25 result set, yet
`hybridSearch` ranks `cd2` first: a document present in only one set
outranks a document present in both. -/
theorem hybridSearch_fusion_priority_violated :
    hybridSearch sqrtOne cLib cState (some [1]) "q" 2 = [cd2, cd1] ∧
    inBothSets (semanticSearch sqrtOne cState (some [1]) 4)
      (bm25RankerSearch cLib docGetField cDocs [("title", 2), ("content", 1)] "q" 4) cd1 ∧
    ¬ inBothSets (semanticSearch sqrtOne cState (some [1]) 4)
      (bm25RankerSearch cLib docGetField cDocs [("title", 2), ("content", 1)] "q" 4) cd2 := by
  have hdef : hybridSearch sqrtOne cLib cState (some [1]) "q" 2 =
      fuseResults (semanticSearch sqrtOne cState (some [1]) 4)
        (bm25RankerSearch cLib docGetField cDocs [("title", 2), ("content", 1)] "q" 4) 2 := rfl
  refine ⟨?_, ?_, ?_⟩
  · rw [hdef, semanticSearch_eval, bm25Search_eval, fuseResults_eval]
  · rw [semanticSearch_eval, bm25Search_eval]
    decide
  · rw [semanticSearch_eval, bm25Search_eval]
    decide

/-! The amended C3: the priority rule does hold whenever no two distinct
documents of the BM25 result list share a fusion key. -/

theorem fuseLe_total (a b : FuseEntry) : fuseLe a b = true ∨ fuseLe b a = true := by
  unfold fuseLe
  by_cases h : a.inBoth = b.inBoth
  · rw [if_pos h, if_pos h.symm]
    rcases le_total a.score b.score with h2 | h2
    · exact Or.inr (decide_eq_true h2)
    · exact Or.inl (decide_eq_true h2)
  · rw [if_neg h, if_neg (fun e => h e.symm)]
    cases ha : a.inBoth with
    | true => exact Or.inl rfl
    | false =>
      cases hb : b.inBoth with
      | true => exact Or.inr rfl
      | false => exact absurd (ha.trans hb.symm) h

theorem fuseLe_trans (a b c : FuseEntry) (h1 : fuseLe a b = true)
    (h2 : fuseLe b c = true) : fuseLe a c = true := by
  unfold fuseLe at h1 h2 ⊢
  by_cases hab : a.inBoth = b.inBoth <;> by_cases hbc : b.inBoth = c.inBoth
  · rw [if_pos hab] at h1
    rw [if_pos hbc] at h2
    rw [if_pos (hab.trans hbc)]
    exact decide_eq_true (le_trans (of_decide_eq_true h2) (of_decide_eq_true h1))
  · rw [if_neg hbc] at h2
    rw [if_neg (fun e => hbc (hab.symm.trans e))]
    exact hab.trans h2
  · rw [if_neg hab] at h1
    rw [if_neg (fun e => hab (e.trans hbc.symm))]
    exact h1
  · rw [if_neg hab] at h1
    rw [if_neg hbc] at h2
    exact absurd (h1.trans h2.symm) hab

theorem keys_setEntry :
    ∀ (m : List (String × FuseEntry)) (k : String) (v : FuseEntry) (k2 : String),
    k2 ∈ (setEntry m k v).map Prod.fst ↔ k2 = k ∨ k2 ∈ m.map Prod.fst
  | [], k, v, k2 => by simp [setEntry]
  | (k3, v3) :: rest, k, v, k2 => by
    by_cases h : k3 = k
    · subst h
      rw [setEntry, if_pos rfl]
      simp only [List.map_cons, List.mem_cons]
      tauto
    · rw [setEntry, if_neg h]
      simp only [List.map_cons, List.mem_cons, keys_setEntry rest k v k2]
      tauto

theorem nodup_keys_setEntry :
    ∀ (m : List (String × FuseEntry)) (k : String) (v : FuseEntry),
    (m.map Prod.fst).Nodup → ((setEntry m k v).map Prod.fst).Nodup
  | [], k, v, _ => by simp [setEntry]
  | (k3, v3) :: rest, k, v, hnd => by
    rw [List.map_cons] at hnd
    rcases List.nodup_cons.mp hnd with ⟨hk3, hrest⟩
    by_cases h : k3 = k
    · subst h
      rw [setEntry, if_pos rfl, List.map_cons]
      exact List.nodup_cons.mpr ⟨hk3, hrest⟩
    · rw [setEntry, if_neg h, List.map_cons]
      refine List.nodup_cons.mpr ⟨?_, nodup_keys_setEntry rest k v hrest⟩
      intro hmem
      rcases (keys_setEntry rest k v k3).mp hmem with rfl | hmem
      · exact h rfl
      · exact hk3 hmem

theorem mem_setEntry_nodup :
    ∀ (m : List (String × FuseEntry)) (k : String) (v : FuseEntry),
    (m.map Prod.fst).Nodup →
    ∀ p ∈ setEntry m k v, p = (k, v) ∨ (p ∈ m ∧ p.1 ≠ k)
  | [], k, v, _, p, hp => by
    rcases List.mem_singleton.mp hp with rfl
    exact Or.inl rfl
  | (k3, v3) :: rest, k, v, hnd, p, hp => by
    rw [List.map_cons] at hnd
    rcases List.nodup_cons.mp hnd with ⟨hk3, hrest⟩
    by_cases h : k3 = k
    · subst h
      rw [setEntry, if_pos rfl] at hp
      rcases List.mem_cons.mp hp with rfl | hp
      · exact Or.inl rfl
      · refine Or.inr ⟨List.mem_cons_of_mem _ hp, fun he => ?_⟩
        apply hk3
        rw [← he]
        exact List.mem_map.mpr ⟨p, hp, rfl⟩
    · rw [setEntry, if_neg h] at hp
      rcases List.mem_cons.mp hp with rfl | hp
      · exact Or.inr ⟨List.mem_cons_self _ _, h⟩
      · rcases mem_setEntry_nodup rest k v hrest p hp with rfl | ⟨hp2, hne⟩
        · exact Or.inl rfl
        · exact Or.inr ⟨List.mem_cons_of_mem _ hp2, hne⟩

theorem lookupEntry_none_iff :
    ∀ (m : List (String × FuseEntry)) (k : String),
    lookupEntry m k = none ↔ k ∉ m.map Prod.fst
  | [], k => by simp [lookupEntry]
  | (k2, v) :: rest, k => by
    by_cases h : k2 = k
    · subst h
      simp [lookupEntry]
    · simp only [lookupEntry, if_neg h, List.map_cons, List.mem_cons,
        lookupEntry_none_iff rest k]
      constructor
      · intro hn hmem
        rcases hmem with rfl | hmem
        · exact h rfl
        · exact hn hmem
      · intro hn hmem
        exact hn (Or.inr hmem)

theorem lookupEntry_some_mem :
    ∀ (m : List (String × FuseEntry)) (k : String) (e : FuseEntry),
    lookupEntry m k = some e → (k, e) ∈ m
  | [], _, _, h => by cases h
  | (k2, v) :: rest, k, e, h => by
    by_cases hk : k2 = k
    · subst hk
      rw [lookupEntry, if_pos rfl] at h
      rcases Option.some.inj h with rfl
      exact List.mem_cons_self _ _
    · rw [lookupEntry, if_neg hk] at h
      exact List.mem_cons_of_mem _ (lookupEntry_some_mem rest k e h)

/-- Invariants of the semantic pass of `hybridSearch`: every entry's key
is its document's key, every entry is unmarked, the keys are distinct, and
the key set is the initial keys plus the semantic results' keys. -/
theorem semPass_props :
    ∀ (ds : List Doc) (m : List (String × FuseEntry)),
    (∀ p ∈ m, docKey p.2.doc = p.1 ∧ p.2.inBoth = false) →
    ((m.map Prod.fst).Nodup) →
    (∀ p ∈ ds.foldl (fun m2 d => setEntry m2 (docKey d)
        { doc := d, score := 1, inBoth := false }) m,
      docKey p.2.doc = p.1 ∧ p.2.inBoth = false) ∧
    (((ds.foldl (fun m2 d => setEntry m2 (docKey d)
        { doc := d, score := 1, inBoth := false }) m).map Prod.fst).Nodup) ∧
    (∀ k2, k2 ∈ (ds.foldl (fun m2 d => setEntry m2 (docKey d)
        { doc := d, score := 1, inBoth := false }) m).map Prod.fst ↔
      k2 ∈ m.map Prod.fst ∨ k2 ∈ ds.map docKey)
  | [], m, hm, hnd => ⟨hm, hnd, by simp⟩
  | d :: ds, m, hm, hnd => by
    have hstep : ∀ p ∈ setEntry m (docKey d) { doc := d, score := 1, inBoth := false },
        docKey p.2.doc = p.1 ∧ p.2.inBoth = false := by
      intro p hp
      rcases mem_setEntry_nodup m (docKey d) _ hnd p hp with rfl | ⟨hp2, _⟩
      · exact ⟨rfl, rfl⟩
      · exact hm p hp2
    have hndstep := nodup_keys_setEntry m (docKey d)
      { doc := d, score := 1, inBoth := false } hnd
    obtain ⟨h1, h2, h3⟩ := semPass_props ds
      (setEntry m (docKey d) { doc := d, score := 1, inBoth := false }) hstep hndstep
    refine ⟨h1, h2, fun k2 => ?_⟩
    rw [List.foldl_cons, h3 k2, keys_setEntry]
    simp only [List.map_cons, List.mem_cons]
    tauto

/-- Invariants of the BM25 pass of `hybridSearch`, provided all BM25 keys
(processed prefix `pk` plus remaining `ds`) are distinct: keys stay
coherent with their documents, and an entry ends marked `inBoth` exactly
when its key is a semantic key and a BM25 key. -/
theorem bmPass_props :
    ∀ (ds : List Doc) (m : List (String × FuseEntry)) (semK pk : List String),
    ((pk ++ ds.map docKey).Nodup) →
    (∀ p ∈ m, docKey p.2.doc = p.1) →
    ((m.map Prod.fst).Nodup) →
    (∀ p ∈ m, p.2.inBoth = true ↔ (p.1 ∈ semK ∧ p.1 ∈ pk)) →
    (∀ p ∈ m, p.1 ∈ semK ∨ p.1 ∈ pk) →
    (∀ k2 ∈ semK, k2 ∈ m.map Prod.fst) →
    (∀ p ∈ ds.foldl bmStep m, docKey p.2.doc = p.1) ∧
    (∀ p ∈ ds.foldl bmStep m,
      p.2.inBoth = true ↔ (p.1 ∈ semK ∧ p.1 ∈ pk ++ ds.map docKey))
  | [], m, semK, pk, _, hcoh, _, hiff, _, _ => by
    refine ⟨hcoh, fun p hp => ?_⟩
    rw [hiff p hp]
    simp
  | d :: ds, m, semK, pk, hnd, hcoh, hndm, hiff, hdom, hsem => by
    have hrearr : pk ++ (d :: ds).map docKey = (pk ++ [docKey d]) ++ ds.map docKey := by
      simp
    have hknotpk : docKey d ∉ pk := by
      intro hk
      rcases List.nodup_append.mp hnd with ⟨_, _, hdisj⟩
      exact hdisj hk (by simp)
    have hnd2 : ((pk ++ [docKey d]) ++ ds.map docKey).Nodup := by
      rw [← hrearr]
      exact hnd
    rw [List.foldl_cons]
    cases hlook : lookupEntry m (docKey d) with
    | some e =>
      have hmem := lookupEntry_some_mem m (docKey d) e hlook
      have hkeysem : docKey d ∈ semK := by
        rcases hdom _ hmem with h | h
        · exact h
        · exact absurd h hknotpk
      have hcoh2 : ∀ p ∈ setEntry m (docKey d)
          { doc := e.doc, score := e.score + 1, inBoth := true },
          docKey p.2.doc = p.1 := by
        intro p hp
        rcases mem_setEntry_nodup m _ _ hndm p hp with rfl | ⟨hp2, _⟩
        · exact hcoh (docKey d, e) hmem
        · exact hcoh p hp2
      have hndm2 := nodup_keys_setEntry m (docKey d)
        { doc := e.doc, score := e.score + 1, inBoth := true } hndm
      have hiff2 : ∀ p ∈ setEntry m (docKey d)
          { doc := e.doc, score := e.score + 1, inBoth := true },
          p.2.inBoth = true ↔ (p.1 ∈ semK ∧ p.1 ∈ pk ++ [docKey d]) := by
        intro p hp
        rcases mem_setEntry_nodup m _ _ hndm p hp with rfl | ⟨hp2, hne⟩
        · exact ⟨fun _ => ⟨hkeysem, by simp⟩, fun _ => rfl⟩
        · rw [hiff p hp2]
          constructor
          · rintro ⟨ha, hb⟩
            exact ⟨ha, List.mem_append_left _ hb⟩
          · rintro ⟨ha, hb⟩
            refine ⟨ha, ?_⟩
            rcases List.mem_append.mp hb with hb | hb
            · exact hb
            · exact absurd (List.mem_singleton.mp hb) hne
      have hdom2 : ∀ p ∈ setEntry m (docKey d)
          { doc := e.doc, score := e.score + 1, inBoth := true },
          p.1 ∈ semK ∨ p.1 ∈ pk ++ [docKey d] := by
        intro p hp
        rcases mem_setEntry_nodup m _ _ hndm p hp with rfl | ⟨hp2, _⟩
        · exact Or.inl hkeysem
        · rcases hdom p hp2 with h | h
          · exact Or.inl h
          · exact Or.inr (List.mem_append_left _ h)
      have hsem2 : ∀ k2 ∈ semK, k2 ∈ (setEntry m (docKey d)
          { doc := e.doc, score := e.score + 1, inBoth := true }).map Prod.fst := by
        intro k2 hk2
        rw [keys_setEntry]
        exact Or.inr (hsem k2 hk2)
      obtain ⟨hA, hB⟩ := bmPass_props ds
        (setEntry m (docKey d) { doc := e.doc, score := e.score + 1, inBoth := true })
        semK (pk ++ [docKey d]) hnd2 hcoh2 hndm2 hiff2 hdom2 hsem2
      have hstep : bmStep m d = setEntry m (docKey d)
          { doc := e.doc, score := e.score + 1, inBoth := true } := by
        rw [bmStep, hlook]
      rw [hstep]
      refine ⟨hA, fun p hp => ?_⟩
      rw [hB p hp, hrearr]
    | none =>
      have hknotm : docKey d ∉ m.map Prod.fst := (lookupEntry_none_iff m (docKey d)).mp hlook
      have hknotsem : docKey d ∉ semK := fun h => hknotm (hsem _ h)
      have hkeys2 : (m ++ [(docKey d, (⟨d, 1/2, false⟩ : FuseEntry))]).map
          Prod.fst = m.map Prod.fst ++ [docKey d] := by
        simp
      have hcoh2 : ∀ p ∈ m ++ [(docKey d, (⟨d, 1/2, false⟩ : FuseEntry))],
          docKey p.2.doc = p.1 := by
        intro p hp
        rcases List.mem_append.mp hp with hp | hp
        · exact hcoh p hp
        · rcases List.mem_singleton.mp hp with rfl
          rfl
      have hndm2 : ((m ++ [(docKey d, (⟨d, 1/2, false⟩ : FuseEntry))]).map
          Prod.fst).Nodup := by
        rw [hkeys2, List.nodup_append]
        exact ⟨hndm, List.nodup_singleton _, fun a ha hb => by
          rcases List.mem_singleton.mp hb with rfl
          exact hknotm ha⟩
      have hiff2 : ∀ p ∈ m ++ [(docKey d, (⟨d, 1/2, false⟩ : FuseEntry))],
          p.2.inBoth = true ↔ (p.1 ∈ semK ∧ p.1 ∈ pk ++ [docKey d]) := by
        intro p hp
        rcases List.mem_append.mp hp with hp | hp
        · rw [hiff p hp]
          have hne : p.1 ≠ docKey d := by
            intro he
            exact hknotm (he ▸ List.mem_map.mpr ⟨p, hp, rfl⟩)
          constructor
          · rintro ⟨ha, hb⟩
            exact ⟨ha, List.mem_append_left _ hb⟩
          · rintro ⟨ha, hb⟩
            refine ⟨ha, ?_⟩
            rcases List.mem_append.mp hb with hb | hb
            · exact hb
            · exact absurd (List.mem_singleton.mp hb) hne
        · rcases List.mem_singleton.mp hp with rfl
          constructor
          · intro he
            cases he
          · rintro ⟨ha, _⟩
            exact absurd ha hknotsem
      have hdom2 : ∀ p ∈ m ++ [(docKey d, (⟨d, 1/2, false⟩ : FuseEntry))],
          p.1 ∈ semK ∨ p.1 ∈ pk ++ [docKey d] := by
        intro p hp
        rcases List.mem_append.mp hp with hp | hp
        · rcases hdom p hp with h | h
          · exact Or.inl h
          · exact Or.inr (List.mem_append_left _ h)
        · rcases List.mem_singleton.mp hp with rfl
          exact Or.inr (by simp)
      have hsem2 : ∀ k2 ∈ semK, k2 ∈ (m ++
          [(docKey d, (⟨d, 1/2, false⟩ : FuseEntry))]).map Prod.fst := by
        intro k2 hk2
        rw [hkeys2]
        exact List.mem_append_left _ (hsem k2 hk2)
      obtain ⟨hA, hB⟩ := bmPass_props ds
        (m ++ [(docKey d, (⟨d, 1/2, false⟩ : FuseEntry))])
        semK (pk ++ [docKey d]) hnd2 hcoh2 hndm2 hiff2 hdom2 hsem2
      have hstep : bmStep m d = m ++ [(docKey d, (⟨d, 1/2, false⟩ : FuseEntry))] := by
        rw [bmStep, hlook]
      rw [hstep]
      refine ⟨hA, fun p hp => ?_⟩
      rw [hB p hp, hrearr]

/-- The fusion pipeline puts every key-in-both-sets document ahead of
every key-in-one-set document, provided the BM25 result list's keys are
distinct. -/
theorem fuseResults_pairwise (semL bmL : List Doc) (topK : Nat)
    (hnd : (bmL.map docKey).Nodup) :
    (fuseResults semL bmL topK).Pairwise
      (fun a b => inBothSets semL bmL b → inBothSets semL bmL a) := by
  obtain ⟨hm1a, hm1b, hm1c⟩ := semPass_props semL [] (by simp) (by simp)
  obtain ⟨hcoh, hiff⟩ := bmPass_props bmL
    (semL.foldl (fun m2 d => setEntry m2 (docKey d)
      { doc := d, score := 1, inBoth := false }) [])
    (semL.map docKey) [] (by simpa using hnd)
    (fun p hp => (hm1a p hp).1) hm1b
    (fun p hp => by
      rw [(hm1a p hp).2]
      simp)
    (fun p hp => Or.inl (by
      have hk : p.1 ∈ (semL.foldl (fun m2 d => setEntry m2 (docKey d)
          { doc := d, score := 1, inBoth := false }) []).map Prod.fst :=
        List.mem_map.mpr ⟨p, hp, rfl⟩
      rcases (hm1c p.1).mp hk with h | h
      · simp at h
      · exact h))
    (fun k2 hk2 => (hm1c k2).mpr (Or.inr hk2))
  have hent : ∀ e ∈ (bmL.foldl bmStep (semL.foldl (fun m2 d => setEntry m2 (docKey d)
      { doc := d, score := 1, inBoth := false }) [])).map Prod.snd,
      (e.inBoth = true ↔ inBothSets semL bmL e.doc) := by
    intro e he
    rcases List.mem_map.mp he with ⟨p, hp, rfl⟩
    rw [hiff p hp]
    unfold inBothSets
    rw [hcoh p hp]
    simp
  have hpw := pairwise_sortLe fuseLe fuseLe_total fuseLe_trans
    ((bmL.foldl bmStep (semL.foldl (fun m2 d => setEntry m2 (docKey d)
      { doc := d, score := 1, inBoth := false }) [])).map Prod.snd)
  have himp : (sortLe fuseLe ((bmL.foldl bmStep (semL.foldl (fun m2 d => setEntry m2 (docKey d)
      { doc := d, score := 1, inBoth := false }) [])).map Prod.snd)).Pairwise
      (fun a b => inBothSets semL bmL b.doc → inBothSets semL bmL a.doc) := by
    refine List.Pairwise.imp_of_mem ?_ hpw
    intro a b ha hb hle hbboth
    have ha2 := hent a ((mem_sortLe _ _ _).mp ha)
    have hb2 := hent b ((mem_sortLe _ _ _).mp hb)
    have hbB : b.inBoth = true := hb2.mpr hbboth
    have haB : a.inBoth = true := by
      unfold fuseLe at hle
      by_cases h : a.inBoth = b.inBoth
      · rw [h]
        exact hbB
      · rw [if_neg h] at hle
        exact hle
    exact ha2.mp haB
  have hmap : ((sortLe fuseLe ((bmL.foldl bmStep (semL.foldl (fun m2 d => setEntry m2 (docKey d)
      { doc := d, score := 1, inBoth := false }) [])).map Prod.snd)).map FuseEntry.doc).Pairwise
      (fun a b => inBothSets semL bmL b → inBothSets semL bmL a) :=
    List.pairwise_map.mpr himp
  exact List.Pairwise.sublist (List.take_sublist _ _) hmap

/-- C3 (amended): the claim holds whenever no two distinct documents of
the BM25 result list share a fusion key (`url + first 50 characters of
content`): every document whose key appears in both result sets is then
placed before every document whose key appears in only one, regardless of
raw scores.  Without that proviso a key occurring twice in the BM25 list
alone is marked `inBoth` and can accumulate a score that outranks genuine
both-set documents (see the counterexample). -/
theorem hybridSearch_fusion_priority :
    ∀ (sq : SqrtModel) (lib : List (List String) → List String → Nat → ℚ)
      (st : RagState) (queryEmb : Option (List ℚ)) (query : String) (topK : Nat),
    ((bm25RankerSearch lib docGetField st.documents [("title", 2), ("content", 1)]
      query (topK * 2)).map docKey).Nodup →
    (hybridSearch sq lib st queryEmb query topK).Pairwise
      (fun a b =>
        inBothSets (semanticSearch sq st queryEmb (topK * 2))
          (bm25RankerSearch lib docGetField st.documents [("title", 2), ("content", 1)]
            query (topK * 2)) b →
        inBothSets (semanticSearch sq st queryEmb (topK * 2))
          (bm25RankerSearch lib docGetField st.documents [("title", 2), ("content", 1)]
            query (topK * 2)) a) :=
  fun sq lib st queryEmb query topK hnd => fuseResults_pairwise _ _ topK hnd

theorem hybridSearch_fusion_priority_witness :
    (hybridSearch sqrtOne cLib st0 none "q" 1).Pairwise
      (fun a b =>
        inBothSets (semanticSearch sqrtOne st0 none 2)
          (bm25RankerSearch cLib docGetField st0.documents [("title", 2), ("content", 1)]
            "q" 2) b →
        inBothSets (semanticSearch sqrtOne st0 none 2)
          (bm25RankerSearch cLib docGetField st0.documents [("title", 2), ("content", 1)]
            "q" 2) a) :=
  hybridSearch_fusion_priority sqrtOne cLib st0 none "q" 1 (by decide)
